import Mathlib

/-!
Shallow embedding of the InboxIntel email-triage client.

Source files embedded here:
* `src/services/gmailBackend.ts` — `mapBackendMessageToEmail` (the message
  normalizer, including its `/(.*)<(.*)>/` sender-header regex).
* `src/App.tsx` — `mergeEmails` (the merge reconciler), the `threads` memo
  (the thread assembler) and the state update of `handleRunAI`.
* `src/services/geminiService.ts` — `analyzeEmailBatch` and
  `generateSmartReply` (the analysis client).

Modelling conventions:
* `receivedAt` is modelled as the parsed epoch-millisecond timestamp
  (an `Int`), i.e. the value of `new Date(e.receivedAt).getTime()` that the
  code compares; the backend `date` field is likewise an optional parsed
  timestamp, and the normalizer's "current time" default is an explicit
  `now` parameter.
* JavaScript's stable `Array.prototype.sort` is modelled by the stable
  `List.mergeSort`, with the boolean order `le a b ↔ cmp a b ≤ 0` derived
  from the numeric comparator in the source.
* A `Map` built from key/value pairs (and a plain object filled by
  assignment) is modelled by a left fold in which a later entry for the
  same key overwrites an earlier one, exactly as in JavaScript.
* Thrown errors are modelled by `Except String`, carrying the thrown
  message; the external network call is an explicit outcome parameter.
-/

namespace InboxIntel

inductive Priority where
  | HIGH | MEDIUM | LOW
deriving DecidableEq

inductive Category where
  | WORK | PERSONAL | NEWSLETTER | FINANCE | SPAM_LIKELY
deriving DecidableEq

inductive Sentiment where
  | POSITIVE | NEUTRAL | NEGATIVE
deriving DecidableEq

/-- The AI analysis record attached to an email (`AIAnalysis` in `types.ts`,
as produced by `analyzeEmailBatch`'s response schema). -/
structure AIAnalysis where
  summary : String
  priority : Priority
  urgencyScore : Int
  category : Category
  actionItems : List String
  sentiment : Sentiment
deriving DecidableEq

/-- The canonical in-memory email record (`Email` in `types.ts`), with
`receivedAt` modelled as the parsed epoch-millisecond timestamp. -/
structure Email where
  id : String
  threadId : Option String
  sender : String
  senderName : String
  subject : String
  snippet : String
  body : String
  receivedAt : Int
  read : Bool
  analysis : Option AIAnalysis
deriving DecidableEq

/-- `Omit<Email, 'analysis'>`: the normalizer's output type. -/
structure RawEmail where
  id : String
  threadId : Option String
  sender : String
  senderName : String
  subject : String
  snippet : String
  body : String
  receivedAt : Int
  read : Bool
deriving DecidableEq

/-- Forget the `analysis` field of an `Email`. -/
def eraseAnalysis (e : Email) : RawEmail :=
  { id := e.id, threadId := e.threadId, sender := e.sender,
    senderName := e.senderName, subject := e.subject, snippet := e.snippet,
    body := e.body, receivedAt := e.receivedAt, read := e.read }

/-- Attach an (optional) analysis to a raw record, as the spread
`{ ...raw, analysis }` does. -/
def withAnalysis (r : RawEmail) (a : Option AIAnalysis) : Email :=
  { id := r.id, threadId := r.threadId, sender := r.sender,
    senderName := r.senderName, subject := r.subject, snippet := r.snippet,
    body := r.body, receivedAt := r.receivedAt, read := r.read,
    analysis := a }

/-- `BackendMessage` from `src/services/gmailBackend.ts` (`from` is renamed
`fromHeader` because `from` is a Lean keyword; `date` is the optional parsed
timestamp). -/
structure BackendMessage where
  id : String
  threadId : Option String
  snippet : Option String
  subject : Option String
  fromHeader : Option String
  date : Option Int
  body : Option String
deriving DecidableEq

/-! ### Model of the JavaScript regex `/(.*)<(.*)>/`

`.` matches any character except an ECMAScript line terminator (LF, CR,
U+2028, U+2029); the engine tries match starts left to right and each
`(.*)` is greedy.  Concretely: a match starting at `p` picks the furthest
`'<'` at position `i ≥ p` reachable from `p` without crossing a line
terminator and such that some `'>'` follows it with no line terminator in
between; group 2 then extends to the furthest such `'>'`. -/

/-- An ECMAScript LineTerminator: LF, CR, LINE SEPARATOR or PARAGRAPH
SEPARATOR — the characters regex `.` does not match. -/
def isLineTerm (c : Char) : Bool :=
  c == '\n' || c == '\r' || c.toNat == 0x2028 || c.toNat == 0x2029

/-- The greatest index below `bound` satisfying `p`, scanning downwards. -/
def lastHit (p : Nat → Bool) : Nat → Option Nat
  | 0 => none
  | n + 1 => if p n then some n else lastHit p n

/-- The character of `s` at index `i` is `c`. -/
def isChar (s : List Char) (i : Nat) (c : Char) : Bool :=
  s[i]? == some c

/-- The slice of `s` at indices `lo ≤ k < hi`. -/
def seg (s : List Char) (lo hi : Nat) : List Char :=
  (s.drop lo).take (hi - lo)

/-- No line terminator at any index `lo ≤ k < hi` of `s`. -/
def ltFree (s : List Char) (lo hi : Nat) : Bool :=
  (seg s lo hi).all (fun c => !(isLineTerm c))

/-- Index `i` holds a `'<'` that some `'>'` follows with no line terminator
strictly between: a candidate end for the greedy first group. -/
def feasible (s : List Char) (i : Nat) : Bool :=
  isChar s i '<' &&
    (lastHit (fun j => decide (i < j) && isChar s j '>' && ltFree s (i + 1) j)
      s.length).isSome

/-- Matching at start `p`: the greedy first group ends at the furthest
feasible `'<'` reachable from `p` without crossing a line terminator. -/
def matchAtFrom (s : List Char) (p : Nat) : Option Nat :=
  lastHit (fun i => decide (p ≤ i) && feasible s i && ltFree s p i) s.length

/-- The match start the engine settles on: starts are tried left to
right. -/
def matchStart (s : List Char) : Option Nat :=
  (List.range s.length).find? (fun p => (matchAtFrom s p).isSome)

/-- The two capture groups of `/(.*)<(.*)>/` applied to `f`, or `none` when
the regex does not match. -/
def jsFromMatch (f : String) : Option (String × String) :=
  let s := f.toList
  match matchStart s with
  | none => none
  | some p =>
    match matchAtFrom s p with
    | none => none
    | some i =>
      match lastHit
          (fun j => decide (i < j) && isChar s j '>' && ltFree s (i + 1) j)
          s.length with
      | none => none
      | some j => some (String.mk (seg s p i), String.mk (seg s (i + 1) j))

/-- The characters JavaScript `String.prototype.trim` strips: ECMAScript
WhiteSpace (TAB, VT, FF, SP, NBSP, ZWNBSP and the Unicode Zs category) and
LineTerminator (LF, CR, LS, PS). -/
def jsWhitespace (c : Char) : Bool :=
  let k := c.toNat
  k == 9 || k == 10 || k == 11 || k == 12 || k == 13 || k == 32 ||
    k == 0xA0 || k == 0x1680 || (decide (0x2000 ≤ k) && decide (k ≤ 0x200A)) ||
    k == 0x2028 || k == 0x2029 || k == 0x202F || k == 0x205F ||
    k == 0x3000 || k == 0xFEFF

/-- JavaScript `String.prototype.trim`: strip leading and trailing
whitespace. -/
def jsTrim (f : String) : String :=
  String.mk
    (((f.toList.dropWhile jsWhitespace).reverse.dropWhile
      jsWhitespace).reverse)

/-- `replace(/"/g, '')`: delete every double quote. -/
def stripQuotes (f : String) : String :=
  String.mk (f.toList.filter (fun c => c != '"'))

/-- The sender-parsing block of `mapBackendMessageToEmail`
(`gmailBackend.ts:19-32`): returns `(senderName, senderEmail)`.  The guard
`if (msg.from)` is a truthiness test, so an absent and an empty `from`
header both keep the sentinels. -/
def parseSender (fromHeader : Option String) : String × String :=
  match fromHeader with
  | none => ("Unknown", "unknown@example.com")
  | some f =>
    if f = "" then ("Unknown", "unknown@example.com")
    else
      match jsFromMatch f with
      | some (g1, g2) => (stripQuotes (jsTrim g1), jsTrim g2)
      | none => (f, f)

/-- JavaScript `o || d` on an optional string: the default is taken when the
field is absent or the empty string (falsy). -/
def strOr (o : Option String) (d : String) : String :=
  match o with
  | some s => if s = "" then d else s
  | none => d

/-- `mapBackendMessageToEmail` (`gmailBackend.ts:19-45`); `now` models the
`new Date().toISOString()` default timestamp. -/
def mapBackendMessageToEmail (now : Int) (msg : BackendMessage) : RawEmail :=
  let p := parseSender msg.fromHeader
  { id := msg.id
    threadId := msg.threadId
    sender := p.2
    senderName := p.1
    subject := strOr msg.subject "(No Subject)"
    snippet := strOr msg.snippet ""
    body := strOr msg.body (strOr msg.snippet "")
    receivedAt := msg.date.getD now
    read := false }

/-! ### Merge reconciler (`src/App.tsx:140-151`) -/

/-- `new Map(emails.map(e => [e.id, e])).get(i)`: repeated insertion where a
later entry for the same key overwrites an earlier one. -/
def mapGet (emails : List Email) (i : String) : Option Email :=
  emails.foldl (fun acc e => if e.id == i then some e else acc) none

/-- `mergeEmails` (`src/App.tsx:140-151`). -/
def mergeEmails (newRawEmails : List RawEmail) (emails : List Email) :
    List Email :=
  newRawEmails.map (fun raw =>
    match mapGet emails raw.id with
    | some existing =>
      match existing.analysis with
      | some a => withAnalysis raw (some a)
      | none => withAnalysis raw none
    | none => withAnalysis raw none)

/-! ### Thread assembler (the `threads` memo, `src/App.tsx:74-101`) -/

/-- The grouping key `e.threadId || e.id` (an empty `threadId` is falsy). -/
def keyOf (e : Email) : String :=
  match e.threadId with
  | some t => if t = "" then e.id else t
  | none => e.id

/-- The distinct grouping keys in order of first occurrence, as iteration
over the insertion-ordered `Map` yields them. -/
def keysFirst : List Email → List String
  | [] => []
  | e :: es => keyOf e :: (keysFirst es).filter (fun k => k ≠ keyOf e)

/-- The groups of the insertion-ordered `Map`: for each key in first-
occurrence order, the emails with that key in input order. -/
def groupsOf (es : List Email) : List (List Email) :=
  (keysFirst es).map (fun k => es.filter (fun e => keyOf e == k))

/-- The intra-thread order: comparator
`new Date(a.receivedAt).getTime() - new Date(b.receivedAt).getTime()`,
so `le a b ↔ cmp a b ≤ 0`. -/
def dateLE (a b : Email) : Bool :=
  a.receivedAt ≤ b.receivedAt

/-- `thread.sort((a, b) => dateA - dateB)` — a stable ascending sort. -/
def sortThread (g : List Email) : List Email :=
  g.mergeSort dateLE

/-- The default needed to read `a[a.length - 1]`; every thread the code
builds is nonempty, so it is never consulted there. -/
def dfltEmail : Email :=
  { id := "", threadId := none, sender := "", senderName := "",
    subject := "", snippet := "", body := "", receivedAt := 0,
    read := false, analysis := none }

/-- `a[a.length - 1]`: the latest message of a (sorted) thread. -/
def latest (t : List Email) : Email :=
  t.getLastD dfltEmail

/-- `latest.analysis?.urgencyScore || 0`. -/
def scoreOf (e : Email) : Int :=
  match e.analysis with
  | some a => a.urgencyScore
  | none => 0

/-- The thread comparator of `App.tsx:88-100` as a boolean order
(`le a b ↔ cmp a b ≤ 0`): with `sa ≠ sb` the comparator returns `sb - sa`,
otherwise `dateB - dateA`. -/
def threadLE (a b : List Email) : Bool :=
  if scoreOf (latest a) = scoreOf (latest b) then
    (latest b).receivedAt ≤ (latest a).receivedAt
  else
    scoreOf (latest b) < scoreOf (latest a)

/-- The `threads` memo (`src/App.tsx:74-101`): group, sort each thread by
date ascending, then sort threads by the comparator on latest messages. -/
def threads (es : List Email) : List (List Email) :=
  ((groupsOf es).map sortThread).mergeSort threadLE

/-! ### Analysis client (`src/services/geminiService.ts`) -/

/-- The message of the error `getAI` throws when no key is configured. -/
def configErrorMsg : String :=
  "Gemini API key is not configured. Please set API_KEY or GEMINI_API_KEY in your .env.local file. Get your key from: https://aistudio.google.com/app/apikey"

/-- The message for a leaked / 403 key (`geminiService.ts:94`). -/
def leakedErrorMsg : String :=
  "Your API key has been reported as leaked. Please generate a NEW API key from https://aistudio.google.com/app/apikey and update your .env.local file."

/-- The message for an invalid / 401 key (`geminiService.ts:98`). -/
def invalidKeyErrorMsg : String :=
  "Invalid API key. Please check your API_KEY in .env.local file. Get a new key from: https://aistudio.google.com/app/apikey"

/-- The fixed string `generateSmartReply` returns on any failure. -/
def replyErrorMsg : String :=
  "Error generating reply. Please try again."

/-- `getAI()` (`geminiService.ts:6-17`): throws the configuration error when
the key is absent or empty (`!apiKey || apiKey === ''`). -/
def getAI (apiKey : Option String) : Except String Unit :=
  match apiKey with
  | none => Except.error configErrorMsg
  | some k => if k = "" then Except.error configErrorMsg else Except.ok ()

/-- `hay.includes(pat)` on strings. -/
def strIncludes : List Char → List Char → Bool
  | [], pat => pat.isEmpty
  | h :: t, pat => pat.isPrefixOf (h :: t) || strIncludes t pat

/-- `error?.error?.message?.includes(pat)` — false when the field is
absent. -/
def msgIncludes (m : Option String) (pat : String) : Bool :=
  match m with
  | some s => strIncludes s.toList pat.toList
  | none => false

/-- The outcome of the `generateContent` network call made by
`analyzeEmailBatch`, as the surrounding `try` observes it:
* `ok items` — a successful structured response, parsed into the
  `(id, analysis)` pairs the `forEach` writes into `resultMap`; `none`
  models an empty `response.text` (the "No data returned" path);
* `fail code msg raw` — a thrown error with optional `error.code` /
  `error.message` fields and top-level message `raw`. -/
inductive GenOutcome where
  | ok (items : Option (List (String × AIAnalysis)))
  | fail (code : Option Int) (msg : Option String) (raw : String)

/-- `analyzeEmailBatch` (`geminiService.ts:20-107`): `getAI` runs inside the
`try` before the network call; a thrown configuration error has no `.error`
field, so the `catch` rethrows it unchanged.  An error outcome is
reclassified by the `catch` clauses in source order; the final
`if (error?.error?.message)` is a truthiness test, so an empty message
falls through to the raw rethrow like an absent one. -/
def analyzeEmailBatch (apiKey : Option String) (outcome : GenOutcome) :
    Except String (List (String × AIAnalysis)) :=
  match getAI apiKey with
  | Except.error e => Except.error e
  | Except.ok _ =>
    match outcome with
    | GenOutcome.ok none => Except.error "No data returned from AI"
    | GenOutcome.ok (some items) => Except.ok items
    | GenOutcome.fail code msg raw =>
      if code == some 403 || msgIncludes msg "leaked" then
        Except.error leakedErrorMsg
      else if code == some 401 || msgIncludes msg "API key" then
        Except.error invalidKeyErrorMsg
      else
        match msg with
        | some m =>
          if m = "" then Except.error raw
          else Except.error ("API Error: " ++ m)
        | none => Except.error raw

/-- The outcome of the `generateContent` call of `generateSmartReply`:
a response text (possibly empty, modelled `none`) or a thrown error. -/
inductive ReplyOutcome where
  | ok (text : Option String)
  | fail

/-- `generateSmartReply` (`geminiService.ts:109-137`): every failure —
including a missing key thrown by `getAI` inside the `try` — is caught and
the fixed error string returned; an empty `response.text` falls back to the
fixed "Could not generate reply." string. -/
def generateSmartReply (apiKey : Option String) (outcome : ReplyOutcome) :
    String :=
  match getAI apiKey with
  | Except.error _ => replyErrorMsg
  | Except.ok _ =>
    match outcome with
    | ReplyOutcome.ok (some t) =>
      if t = "" then "Could not generate reply." else t
    | ReplyOutcome.ok none => "Could not generate reply."
    | ReplyOutcome.fail => replyErrorMsg

/-! ### `handleRunAI` state update (`src/App.tsx:182-215`) -/

/-- `results[email.id]`: lookup in the `resultMap` object, where a later
assignment for the same id overwrites an earlier one. -/
def resultGet (results : List (String × AIAnalysis)) (i : String) :
    Option AIAnalysis :=
  results.foldl (fun acc p => if p.1 == i then some p.2 else acc) none

/-- The success-path update `emails.map(email => ({ ...email, analysis:
results[email.id] || email.analysis }))` (`App.tsx:193-196`); an analysis
object is always truthy, so `||` keeps the old value exactly when the id is
absent from the response. -/
def applyAnalysis (emails : List Email)
    (results : List (String × AIAnalysis)) : List Email :=
  emails.map (fun email =>
    match resultGet results email.id with
    | some a => { email with analysis := some a }
    | none => { email with analysis := email.analysis })

/-- The state transition of `handleRunAI` on the working set: on success the
mapped update is stored; on a thrown error the `catch` only reports and the
working set is left untouched. -/
def handleRunAI (emails : List Email)
    (r : Except String (List (String × AIAnalysis))) : List Email :=
  match r with
  | Except.ok results => applyAnalysis emails results
  | Except.error _ => emails

/-! ### Generic helpers used by the proofs -/

/-- The last element of a list satisfying `p` (the value a fold of
overwriting insertions retains). -/
def lastFind (p : α → Bool) : List α → Option α
  | [] => none
  | a :: l =>
    match lastFind p l with
    | some x => some x
    | none => if p a then some a else none

/-- A backend message with no `threadId` and no other optional fields. -/
def msgNoThread : BackendMessage :=
  { id := "a", threadId := none, snippet := none, subject := none,
    fromHeader := none, date := none, body := none }

/-- A concrete analysis value used by the witnesses. -/
def analW : AIAnalysis :=
  { summary := "Quarterly report due", priority := Priority.HIGH,
    urgencyScore := 90, category := Category.WORK, actionItems := [],
    sentiment := Sentiment.NEUTRAL }

/-- A concrete normalized record used by the witnesses. -/
def rawW : RawEmail :=
  { id := "m1", threadId := some "t1", sender := "bob@x.com",
    senderName := "Bob", subject := "Report", snippet := "", body := "",
    receivedAt := 5, read := false }

/-- A concrete current record with the same id as `rawW` and an attached
analysis, used by the witnesses. -/
def curW : Email :=
  { id := "m1", threadId := some "t1", sender := "bob@x.com",
    senderName := "Bob", subject := "Old subject", snippet := "",
    body := "", receivedAt := 3, read := false, analysis := some analW }

/-- A concrete email used by the thread witnesses: first message of thread
`"t"`. -/
def eA : Email :=
  { id := "a", threadId := some "t", sender := "x@x", senderName := "X",
    subject := "s1", snippet := "", body := "", receivedAt := 1,
    read := false, analysis := none }

/-- A concrete email used by the thread witnesses: second message of thread
`"t"`, carrying an analysis. -/
def eB : Email :=
  { id := "b", threadId := some "t", sender := "y@y", senderName := "Y",
    subject := "s2", snippet := "", body := "", receivedAt := 2,
    read := false, analysis := some analW }

/-- A concrete working set used by the thread witnesses. -/
def esW : List Email := [eB, eA]

/-- A backend message with a quoted display-name sender header, used by the
sender-parsing witness. -/
def msgBob : BackendMessage :=
  { id := "b1", threadId := none, snippet := none, subject := none,
    fromHeader := some "\"Bob Smith\" <bob@x.com>", date := none,
    body := none }

end InboxIntel

namespace InboxIntel

/-! ### Generic lemmas about the helper functions -/

theorem eraseAnalysis_withAnalysis (r : RawEmail) (a : Option AIAnalysis) :
    eraseAnalysis (withAnalysis r a) = r := rfl

theorem withAnalysis_id (r : RawEmail) (a : Option AIAnalysis) :
    (withAnalysis r a).id = r.id := rfl

theorem withAnalysis_analysis (r : RawEmail) (a : Option AIAnalysis) :
    (withAnalysis r a).analysis = a := rfl

theorem withAnalysis_read (r : RawEmail) (a : Option AIAnalysis) :
    (withAnalysis r a).read = r.read := rfl

theorem foldl_overwrite (p : α → Bool) (l : List α) (acc : Option α) :
    l.foldl (fun acc e => if p e then some e else acc) acc =
      match lastFind p l with
      | some x => some x
      | none => acc := by
  induction l generalizing acc with
  | nil => rfl
  | cons a l ih =>
    simp only [List.foldl_cons, lastFind, ih]
    cases h : lastFind p l <;> cases hp : p a <;> simp [h, hp]

theorem mapGet_eq (cur : List Email) (i : String) :
    mapGet cur i = lastFind (fun e => e.id == i) cur := by
  unfold mapGet
  rw [foldl_overwrite]
  cases lastFind (fun e => e.id == i) cur <;> rfl

theorem lastFind_eq_some {p : α → Bool} {l : List α} {x : α}
    (h : lastFind p l = some x) : p x = true ∧ x ∈ l := by
  induction l with
  | nil => simp [lastFind] at h
  | cons a l ih =>
    rw [lastFind] at h
    cases h' : lastFind p l with
    | some y =>
      rw [h'] at h
      simp only [Option.some.injEq] at h
      subst h
      obtain ⟨hp, hm⟩ := ih h'
      exact ⟨hp, List.mem_cons_of_mem _ hm⟩
    | none =>
      rw [h'] at h
      by_cases hp : p a = true
      · rw [if_pos hp] at h
        simp only [Option.some.injEq] at h
        subst h
        exact ⟨hp, List.mem_cons_self _ _⟩
      · rw [if_neg hp] at h
        cases h

theorem lastFind_isSome (p : α → Bool) {l : List α} {a : α}
    (ha : a ∈ l) (hp : p a = true) : ∃ x, lastFind p l = some x := by
  induction l with
  | nil => cases ha
  | cons b l ih =>
    rw [lastFind]
    cases h' : lastFind p l with
    | some y => exact ⟨y, rfl⟩
    | none =>
      rcases List.mem_cons.mp ha with hb | hm
      · subst hb
        exact ⟨a, by rw [if_pos hp]⟩
      · obtain ⟨x, hx⟩ := ih hm
        rw [hx] at h'
        cases h'

theorem lastFind_map {f : α → β} {p : β → Bool} (l : List α) :
    lastFind p (l.map f) = (lastFind (fun x => p (f x)) l).map f := by
  induction l with
  | nil => rfl
  | cons a l ih =>
    simp only [List.map_cons, lastFind, ih]
    cases lastFind (fun x => p (f x)) l with
    | some y => rfl
    | none =>
      simp only [Option.map_none']
      by_cases hp : p (f a) = true
      · rw [if_pos hp, if_pos hp]
        rfl
      · rw [if_neg hp, if_neg hp]
        rfl

/-- `mergeEmails` in closed form: the match on `existing.analysis` is an
option bind. -/
theorem mergeEmails_eq (inc : List RawEmail) (cur : List Email) :
    mergeEmails inc cur =
      inc.map (fun raw =>
        withAnalysis raw ((mapGet cur raw.id).bind Email.analysis)) := by
  unfold mergeEmails
  apply List.map_congr_left
  intro r _
  cases h : mapGet cur r.id with
  | none => rfl
  | some ex => cases hA : ex.analysis <;> simp [hA]

/-! ### C1, C2 — merge reconciler -/

/-- C1: the merge reconciler returns a list matching the incoming list in
membership and order, each output record taking all fields from the incoming
record except that `analysis` is copied from the current record with the
same `id` when that record exists and has a non-null `analysis` (otherwise
left unset); records present in current but absent from incoming are
excluded. -/
theorem mergeEmails_spec (inc : List RawEmail) (cur : List Email) :
    (mergeEmails inc cur).map eraseAnalysis = inc ∧
    (∀ (i : Nat) (r : RawEmail) (e : Email),
      inc[i]? = some r → (mergeEmails inc cur)[i]? = some e →
      (mapGet cur r.id = none → e.analysis = none) ∧
      (∀ ex, mapGet cur r.id = some ex → ex.analysis = none →
        e.analysis = none) ∧
      (∀ ex a, mapGet cur r.id = some ex → ex.analysis = some a →
        e.analysis = some a)) ∧
    (∀ e ∈ mergeEmails inc cur, e.id ∈ inc.map RawEmail.id) := by
  refine ⟨?_, ?_, ?_⟩
  · rw [mergeEmails_eq, List.map_map]
    have : ∀ r ∈ inc,
        (eraseAnalysis ∘ fun raw =>
          withAnalysis raw ((mapGet cur raw.id).bind Email.analysis)) r =
          id r := by
      intro r _
      simp [eraseAnalysis_withAnalysis]
    rw [List.map_congr_left this, List.map_id]
  · intro i r e hr he
    rw [mergeEmails_eq, List.getElem?_map, hr] at he
    simp only [Option.map_some', Option.some.injEq] at he
    subst he
    refine ⟨?_, ?_, ?_⟩
    · intro h; simp [withAnalysis_analysis, h]
    · intro ex hex ha; simp [withAnalysis_analysis, hex, ha]
    · intro ex a hex ha; simp [withAnalysis_analysis, hex, ha]
  · intro e he
    rw [mergeEmails_eq] at he
    obtain ⟨r, hr, he⟩ := List.mem_map.mp he
    subst he
    exact List.mem_map.mpr ⟨r, hr, rfl⟩

theorem mergeEmails_spec_witness :
    (mergeEmails [rawW] [curW]).map eraseAnalysis = [rawW] ∧
    (mergeEmails [rawW] [curW])[0]?.map Email.analysis =
      some (some analW) := by
  have h := mergeEmails_spec [rawW] [curW]
  refine ⟨h.1, ?_⟩
  have h2 := h.2.1 0 rawW (withAnalysis rawW (some analW)) (by decide)
    (by decide)
  have h3 := h2.2.2 curW analW (by decide) (by decide)
  have : (mergeEmails [rawW] [curW])[0]? =
      some (withAnalysis rawW (some analW)) := by decide
  rw [this]
  simp [withAnalysis_analysis]

/-- C2: the merge reconciler is idempotent:
`merge(incoming, merge(incoming, current)) = merge(incoming, current)`. -/
theorem mergeEmails_idem (inc : List RawEmail) (cur : List Email) :
    mergeEmails inc (mergeEmails inc cur) = mergeEmails inc cur := by
  rw [mergeEmails_eq inc cur, mergeEmails_eq]
  apply List.map_congr_left
  intro r hr
  congr 1
  rw [mapGet_eq, lastFind_map]
  obtain ⟨x, hx⟩ :=
    lastFind_isSome (fun x : RawEmail => x.id == r.id) hr (by simp)
  have heq : (fun x : RawEmail =>
      (withAnalysis x ((mapGet cur x.id).bind Email.analysis)).id == r.id) =
      (fun x : RawEmail => x.id == r.id) := by
    funext x; rw [withAnalysis_id]
  rw [heq, hx]
  obtain ⟨hpx, _⟩ := lastFind_eq_some hx
  have hxid : x.id = r.id := by simpa using hpx
  simp [withAnalysis_analysis, hxid]

/-! ### C5 — normalizer `threadId` pass-through -/

/-- C5 counterexample: for a raw record with no `threadId`, the normalizer
leaves `threadId` unset rather than defaulting it to the record's `id`. -/
theorem normalizer_threadId_counterexample :
    (mapBackendMessageToEmail 0 msgNoThread).threadId ≠
      some msgNoThread.id := by decide

/-- C5 amended: the normalizer passes the raw record's `threadId` through
unchanged (unset stays unset); the default to the record's `id` happens in
the thread assembler's grouping key, which uses `id` whenever `threadId` is
absent or empty. -/
theorem normalizer_threadId_amended (now : Int) (msg : BackendMessage) :
    (mapBackendMessageToEmail now msg).threadId = msg.threadId ∧
    (∀ e : Email, e.threadId = none ∨ e.threadId = some "" →
      keyOf e = e.id) := by
  refine ⟨rfl, ?_⟩
  intro e he
  rcases he with h | h <;> simp [keyOf, h]

theorem normalizer_threadId_amended_witness :
    (mapBackendMessageToEmail 0 msgNoThread).threadId = none ∧
    keyOf dfltEmail = dfltEmail.id := by
  have h := normalizer_threadId_amended 0 msgNoThread
  exact ⟨h.1, h.2 dfltEmail (Or.inl rfl)⟩

/-! ### C7 — batch analysis error taxonomy and frame -/

/-- C7: a missing or empty credential raises the configuration error
independently of any network outcome (so before any network call); a
leaked/403 response raises the credential-rotation error; a 401 /
invalid-key response raises the distinct invalid-key error; any other
non-success response with a non-empty message raises the generic service
error, while one with an absent or empty message — the truthiness test
`if (error?.error?.message)` — is rethrown as the original error; and on
any error `handleRunAI` leaves the working set unchanged. -/
theorem analyzeEmailBatch_error_spec (key : Option String)
    (emails : List Email) :
    (∀ o₁ o₂ : GenOutcome, key = none ∨ key = some "" →
      analyzeEmailBatch key o₁ = Except.error configErrorMsg ∧
      analyzeEmailBatch key o₁ = analyzeEmailBatch key o₂) ∧
    (∀ k code m raw, key = some k → k ≠ "" →
      code = some 403 ∨ msgIncludes m "leaked" = true →
      analyzeEmailBatch key (GenOutcome.fail code m raw) =
        Except.error leakedErrorMsg) ∧
    (∀ k code m raw, key = some k → k ≠ "" →
      code ≠ some 403 → msgIncludes m "leaked" = false →
      code = some 401 ∨ msgIncludes m "API key" = true →
      analyzeEmailBatch key (GenOutcome.fail code m raw) =
        Except.error invalidKeyErrorMsg) ∧
    (∀ k code mtext raw, key = some k → k ≠ "" →
      code ≠ some 403 → msgIncludes (some mtext) "leaked" = false →
      code ≠ some 401 → msgIncludes (some mtext) "API key" = false →
      mtext ≠ "" →
      analyzeEmailBatch key (GenOutcome.fail code (some mtext) raw) =
        Except.error ("API Error: " ++ mtext)) ∧
    (∀ k code mo raw, key = some k → k ≠ "" →
      code ≠ some 403 → msgIncludes mo "leaked" = false →
      code ≠ some 401 → msgIncludes mo "API key" = false →
      mo = none ∨ mo = some "" →
      analyzeEmailBatch key (GenOutcome.fail code mo raw) =
        Except.error raw) ∧
    (∀ e, handleRunAI emails (Except.error e) = emails) := by
  refine ⟨?_, ?_, ?_, ?_, ?_, fun e => rfl⟩
  · intro o₁ o₂ hk
    rcases hk with h | h <;> subst h <;>
      simp [analyzeEmailBatch, getAI]
  · intro k code m raw hk hke hcond
    subst hk
    have : (code == some 403 || msgIncludes m "leaked") = true := by
      rcases hcond with h | h <;> simp [h]
    simp [analyzeEmailBatch, getAI, hke, this]
  · intro k code m raw hk hke h403 hleak hcond
    subst hk
    have h1 : (code == some 403 || msgIncludes m "leaked") = false := by
      simp [hleak, h403]
    have h2 : (code == some 401 || msgIncludes m "API key") = true := by
      rcases hcond with h | h <;> simp [h]
    simp [analyzeEmailBatch, getAI, hke, h1, h2]
  · intro k code mtext raw hk hke h403 hleak h401 hapi hne
    subst hk
    have h1 : (code == some 403 || msgIncludes (some mtext) "leaked") =
        false := by simp [hleak, h403]
    have h2 : (code == some 401 || msgIncludes (some mtext) "API key") =
        false := by simp [hapi, h401]
    simp [analyzeEmailBatch, getAI, hke, h1, h2, hne]
  · intro k code mo raw hk hke h403 hleak h401 hapi hmo
    subst hk
    have h1 : (code == some 403 || msgIncludes mo "leaked") = false := by
      simp [hleak, h403]
    have h2 : (code == some 401 || msgIncludes mo "API key") = false := by
      simp [hapi, h401]
    rcases hmo with h | h <;> subst h <;>
      simp [analyzeEmailBatch, getAI, hke, h1, h2]

theorem analyzeEmailBatch_error_spec_witness :
    analyzeEmailBatch none (GenOutcome.ok (some [])) =
      Except.error configErrorMsg ∧
    analyzeEmailBatch (some "k") (GenOutcome.fail (some 403) none "boom") =
      Except.error leakedErrorMsg ∧
    analyzeEmailBatch (some "k")
        (GenOutcome.fail (some 500) (some "overloaded") "boom") =
      Except.error ("API Error: " ++ "overloaded") ∧
    analyzeEmailBatch (some "k")
        (GenOutcome.fail (some 500) (some "") "boom") =
      Except.error "boom" ∧
    handleRunAI [curW] (Except.error configErrorMsg) = [curW] := by
  have h1 := (analyzeEmailBatch_error_spec none []).1
    (GenOutcome.ok (some [])) (GenOutcome.ok none) (Or.inl rfl)
  have h2 := (analyzeEmailBatch_error_spec (some "k") []).2.1 "k"
    (some 403) none "boom" rfl (by decide) (Or.inl rfl)
  have h3 := (analyzeEmailBatch_error_spec (some "k") []).2.2.2.1 "k"
    (some 500) "overloaded" "boom" rfl (by decide) (by decide) (by decide)
    (by decide) (by decide) (by decide)
  have h5 := (analyzeEmailBatch_error_spec (some "k") []).2.2.2.2.1 "k"
    (some 500) (some "") "boom" rfl (by decide) (by decide) (by decide)
    (by decide) (by decide) (Or.inr rfl)
  have h4 := (analyzeEmailBatch_error_spec (some "k")
    [curW]).2.2.2.2.2 configErrorMsg
  exact ⟨h1.1, h2, h3, h5, h4⟩

/-! ### C8 — analysis application frame -/

/-- C8: applying a batch response replaces `analysis` exactly for the emails
whose `id` appears in the response; an email whose `id` is absent keeps its
previous `analysis` (unset stays unset), and a prior analysis is never
overwritten with null. -/
theorem applyAnalysis_frame (emails : List Email)
    (results : List (String × AIAnalysis)) :
    (applyAnalysis emails results).length = emails.length ∧
    (∀ (i : Nat) (e : Email), emails[i]? = some e →
      ∃ e', (applyAnalysis emails results)[i]? = some e' ∧
        e'.id = e.id ∧
        (resultGet results e.id = none → e'.analysis = e.analysis) ∧
        (∀ a, resultGet results e.id = some a →
          e'.analysis = some a)) := by
  refine ⟨by simp [applyAnalysis], ?_⟩
  intro i e he
  cases h : resultGet results e.id with
  | none =>
    refine ⟨{ e with analysis := e.analysis }, ?_, rfl, fun _ => rfl, ?_⟩
    · simp [applyAnalysis, he, h]
    · intro a ha
      cases ha
  | some a =>
    refine ⟨{ e with analysis := some a }, ?_, rfl, ?_, ?_⟩
    · simp [applyAnalysis, he, h]
    · intro hn
      cases hn
    · intro a' ha'
      cases ha'
      rfl

theorem applyAnalysis_frame_witness :
    (applyAnalysis [curW] [])[0]?.map Email.analysis =
      some (some analW) := by
  obtain ⟨e', he', _, hkeep, _⟩ :=
    (applyAnalysis_frame [curW] []).2 0 curW rfl
  rw [he', Option.map_some', hkeep rfl]
  rfl

/-! ### C9 — smart reply never throws -/

/-- C9: the single-message reply draft never throws: on any failure,
including a missing credential or a service error, it returns the fixed
human-readable error string, while the batch analysis propagates those same
failures as errors. -/
theorem generateSmartReply_never_throws (key : Option String) :
    (key = none ∨ key = some "" →
      ∀ o, generateSmartReply key o = replyErrorMsg) ∧
    generateSmartReply key ReplyOutcome.fail = replyErrorMsg ∧
    (key = none ∨ key = some "" →
      ∀ o, ∃ m, analyzeEmailBatch key o = Except.error m) ∧
    (∀ code m raw, ∃ s,
      analyzeEmailBatch key (GenOutcome.fail code m raw) =
        Except.error s) := by
  refine ⟨?_, ?_, ?_, ?_⟩
  · intro hk o
    rcases hk with h | h <;> subst h <;> simp [generateSmartReply, getAI]
  · unfold generateSmartReply
    cases getAI key <;> rfl
  · intro hk o
    rcases hk with h | h <;> subst h <;>
      exact ⟨configErrorMsg, by simp [analyzeEmailBatch, getAI]⟩
  · intro code m raw
    unfold analyzeEmailBatch
    cases hai : getAI key with
    | error e => exact ⟨e, rfl⟩
    | ok u =>
      by_cases h1 : (code == some 403 || msgIncludes m "leaked") = true
      · exact ⟨leakedErrorMsg, by simp [h1]⟩
      · by_cases h2 : (code == some 401 || msgIncludes m "API key") = true
        · exact ⟨invalidKeyErrorMsg,
            by simp [Bool.not_eq_true] at h1; simp [h1, h2]⟩
        · simp [Bool.not_eq_true] at h1 h2
          cases m with
          | some mt =>
            by_cases hmt : mt = ""
            · subst hmt
              exact ⟨raw, by simp [h1, h2]⟩
            · exact ⟨"API Error: " ++ mt, by simp [h1, h2, hmt]⟩
          | none => exact ⟨raw, by simp [h1, h2]⟩

theorem generateSmartReply_never_throws_witness :
    generateSmartReply none (ReplyOutcome.ok (some "hi")) = replyErrorMsg ∧
    generateSmartReply (some "k") ReplyOutcome.fail = replyErrorMsg := by
  exact ⟨(generateSmartReply_never_throws none).1 (Or.inl rfl)
      (ReplyOutcome.ok (some "hi")),
    (generateSmartReply_never_throws (some "k")).2.1⟩

/-! ### C10 — `read` is reset on every merge -/

/-- C10: the normalizer always initializes `read` to `false` and the merge
copies every field except `analysis` from the incoming record, so every
record of the merged working set has `read = false`; a `read` flag on an
existing record with the same `id` is never preserved across a merge. -/
theorem merged_read_false (now : Int) (msgs : List BackendMessage)
    (cur : List Email) :
    (∀ msg, (mapBackendMessageToEmail now msg).read = false) ∧
    (∀ inc : List RawEmail, ∀ e ∈ mergeEmails inc cur,
      ∃ r ∈ inc, e.read = r.read) ∧
    (∀ e ∈ mergeEmails (msgs.map (mapBackendMessageToEmail now)) cur,
      e.read = false) := by
  refine ⟨fun msg => rfl, ?_, ?_⟩
  · intro inc e he
    rw [mergeEmails_eq] at he
    obtain ⟨r, hr, he⟩ := List.mem_map.mp he
    exact ⟨r, hr, by rw [← he, withAnalysis_read]⟩
  · intro e he
    rw [mergeEmails_eq] at he
    obtain ⟨r, hr, he⟩ := List.mem_map.mp he
    obtain ⟨msg, _, hmsg⟩ := List.mem_map.mp hr
    rw [← he, withAnalysis_read, ← hmsg]
    rfl

/-! ### Lemmas about grouping and the two sort orders -/

theorem pairwise_of_mem {R : α → α → Prop} {l : List α}
    (h : ∀ a ∈ l, ∀ b ∈ l, R a b) : l.Pairwise R := by
  induction l with
  | nil => exact List.Pairwise.nil
  | cons a l ih =>
    refine List.Pairwise.cons ?_ (ih ?_)
    · intro b hb
      exact h a (List.mem_cons_self _ _) b (List.mem_cons_of_mem _ hb)
    · intro x hx y hy
      exact h x (List.mem_cons_of_mem _ hx) y (List.mem_cons_of_mem _ hy)

theorem dateLE_trans :
    ∀ a b c : Email, dateLE a b → dateLE b c → dateLE a c := by
  intro a b c hab hbc
  simp only [dateLE, decide_eq_true_eq] at *
  omega

theorem dateLE_total : ∀ a b : Email, dateLE a b || dateLE b a := by
  intro a b
  simp only [dateLE, Bool.or_eq_true, decide_eq_true_eq]
  omega

theorem threadLE_iff (a b : List Email) :
    threadLE a b = true ↔
      (scoreOf (latest b) < scoreOf (latest a) ∨
        (scoreOf (latest a) = scoreOf (latest b) ∧
          (latest b).receivedAt ≤ (latest a).receivedAt)) := by
  unfold threadLE
  by_cases h : scoreOf (latest a) = scoreOf (latest b) <;> simp [h]

theorem threadLE_trans :
    ∀ a b c : List Email, threadLE a b → threadLE b c → threadLE a c := by
  intro a b c hab hbc
  rw [threadLE_iff] at *
  omega

theorem threadLE_total :
    ∀ a b : List Email, threadLE a b || threadLE b a := by
  intro a b
  rw [Bool.or_eq_true, threadLE_iff, threadLE_iff]
  omega

theorem keysFirst_nodup (es : List Email) : (keysFirst es).Nodup := by
  induction es with
  | nil => exact List.nodup_nil
  | cons e es ih =>
    rw [keysFirst]
    refine List.Nodup.cons ?_ (ih.filter _)
    intro hmem
    have := List.of_mem_filter hmem
    simp at this

theorem mem_keysFirst {es : List Email} {e : Email} (he : e ∈ es) :
    keyOf e ∈ keysFirst es := by
  induction es with
  | nil => cases he
  | cons a es ih =>
    rw [keysFirst]
    rcases List.mem_cons.mp he with h | h
    · subst h
      exact List.mem_cons_self _ _
    · by_cases hk : keyOf e = keyOf a
      · rw [hk]
        exact List.mem_cons_self _ _
      · exact List.mem_cons_of_mem _
          (List.mem_filter.mpr ⟨ih h, by simp [hk]⟩)

theorem keysFirst_exists {es : List Email} {k : String}
    (hk : k ∈ keysFirst es) : ∃ e ∈ es, keyOf e = k := by
  induction es with
  | nil => cases hk
  | cons a es ih =>
    rw [keysFirst] at hk
    rcases List.mem_cons.mp hk with h | h
    · exact ⟨a, List.mem_cons_self _ _, h.symm⟩
    · obtain ⟨e, he, hke⟩ := ih (List.mem_of_mem_filter h)
      exact ⟨e, List.mem_cons_of_mem _ he, hke⟩

theorem flatten_filter_perm :
    ∀ (ks : List String) (es : List Email), ks.Nodup →
      (∀ e ∈ es, keyOf e ∈ ks) →
      List.Perm
        (ks.map (fun k => es.filter (fun e => keyOf e == k))).flatten
        es := by
  intro ks
  induction ks with
  | nil =>
    intro es _ hcov
    have hnil : es = [] := by
      cases es with
      | nil => rfl
      | cons a es => cases hcov a (List.mem_cons_self _ _)
    simp [hnil]
  | cons k ks ih =>
    intro es hnd hcov
    simp only [List.map_cons, List.flatten_cons]
    have hknotin : k ∉ ks := (List.nodup_cons.mp hnd).1
    have hnd' : ks.Nodup := (List.nodup_cons.mp hnd).2
    have hmapeq : ks.map (fun kk => es.filter (fun e => keyOf e == kk)) =
        ks.map (fun kk =>
          (es.filter (fun e => !(keyOf e == k))).filter
            (fun e => keyOf e == kk)) := by
      apply List.map_congr_left
      intro kk hkk
      rw [List.filter_filter]
      apply List.filter_congr
      intro e _
      cases hc : (keyOf e == kk) with
      | false => rfl
      | true =>
        have : keyOf e = kk := by simpa using hc
        have hne : ¬ (keyOf e == k) = true := by
          simp [this]
          intro hek
          exact hknotin (hek ▸ hkk)
        simp [hne]
    have hcov' : ∀ e ∈ es.filter (fun e => !(keyOf e == k)),
        keyOf e ∈ ks := by
      intro e he
      obtain ⟨hmem, hpred⟩ := List.mem_filter.mp he
      have hne : keyOf e ≠ k := by simpa using hpred
      rcases List.mem_cons.mp (hcov e hmem) with h | h
      · exact absurd h hne
      · exact h
    have hperm := ih (es.filter (fun e => !(keyOf e == k))) hnd' hcov'
    rw [hmapeq]
    exact List.Perm.trans (hperm.append_left _)
      (List.filter_append_perm _ es)

theorem groupsOf_flatten_perm (es : List Email) :
    List.Perm (groupsOf es).flatten es :=
  flatten_filter_perm (keysFirst es) es (keysFirst_nodup es)
    (fun _ he => mem_keysFirst he)

theorem threads_perm_groups (es : List Email) :
    List.Perm (threads es) ((groupsOf es).map sortThread) :=
  List.mergeSort_perm _ _

theorem sortThread_perm (g : List Email) : List.Perm (sortThread g) g :=
  List.mergeSort_perm _ _

theorem mem_threads {es : List Email} {t : List Email}
    (ht : t ∈ threads es) :
    ∃ k ∈ keysFirst es,
      t = sortThread (es.filter (fun e => keyOf e == k)) := by
  have : t ∈ (groupsOf es).map sortThread := List.mem_mergeSort.mp ht
  obtain ⟨g, hg, hgt⟩ := List.mem_map.mp this
  obtain ⟨k, hk, hkg⟩ := List.mem_map.mp hg
  exact ⟨k, hk, by rw [← hgt, ← hkg]⟩

theorem merged_read_false_witness :
    (withAnalysis (mapBackendMessageToEmail 0 msgNoThread) none).read =
      false := by
  exact (merged_read_false 0 [msgNoThread] [curW]).2.2
    (withAnalysis (mapBackendMessageToEmail 0 msgNoThread) none)
    (by rw [mergeEmails_eq]; simp; decide)

/-! ### Lemmas about the regex model -/

theorem lastHit_eq_some_of {p : Nat → Bool} {m : Nat} :
    ∀ {bound : Nat}, m < bound → p m = true →
      (∀ j, m < j → j < bound → p j = false) →
      lastHit p bound = some m := by
  intro bound
  induction bound with
  | zero => intro h; omega
  | succ b ih =>
    intro hm hp hmax
    rw [lastHit]
    by_cases hb : m = b
    · subst hb
      rw [if_pos hp]
    · have hmb : m < b := by omega
      have hpb : p b = false := hmax b hmb (by omega)
      rw [if_neg (by simp [hpb])]
      exact ih hmb hp (fun j h1 h2 => hmax j h1 (by omega))

theorem lastHit_isSome_of {p : Nat → Bool} {j : Nat} :
    ∀ {bound : Nat}, j < bound → p j = true →
      (lastHit p bound).isSome = true := by
  intro bound
  induction bound with
  | zero => intro h; omega
  | succ b ih =>
    intro hj hp
    rw [lastHit]
    by_cases hb : p b = true
    · rw [if_pos hb]
      rfl
    · rw [if_neg hb]
      have hne : j ≠ b := fun h => hb (h ▸ hp)
      exact ih (by omega) hp

theorem mem_seg {s : List Char} {lo hi : Nat} {c : Char}
    (h : c ∈ seg s lo hi) : c ∈ s :=
  List.mem_of_mem_drop (List.mem_of_mem_take h)

theorem ltFree_of_no_lt {s : List Char} (h : ∀ c ∈ s, isLineTerm c = false)
    (lo hi : Nat) : ltFree s lo hi = true := by
  unfold ltFree
  rw [List.all_eq_true]
  intro c hc
  simpa using h c (mem_seg hc)

/-- The central regex fact behind the sender parser: on a header of the
well-formed shape `name ++ "<" ++ addr ++ ">"` — with no line terminator in
the name and an address free of angle brackets and line terminators — the
leftmost-greedy match of `/(.*)<(.*)>/` captures exactly the name and the
address. -/
theorem jsFromMatch_decomposition (n a : List Char)
    (hn : ∀ c ∈ n, isLineTerm c = false)
    (ha : ∀ c ∈ a, c ≠ '<' ∧ c ≠ '>' ∧ isLineTerm c = false) :
    jsFromMatch (String.mk (n ++ '<' :: (a ++ ['>']))) =
      some (String.mk n, String.mk a) := by
  set s : List Char := n ++ '<' :: (a ++ ['>']) with hs
  have hlen : s.length = n.length + a.length + 2 := by
    simp [hs]
    omega
  have hnl : ∀ c ∈ s, isLineTerm c = false := by
    intro c hc
    rw [hs, List.mem_append, List.mem_cons, List.mem_append,
      List.mem_singleton] at hc
    rcases hc with hc | hc | hc | hc
    · exact hn c hc
    · subst hc; decide
    · exact (ha c hc).2.2
    · subst hc; decide
  have hsN : s[n.length]? = some '<' := by
    rw [hs, List.getElem?_append_right (Nat.le_refl _)]
    simp
  have hsLast : s[n.length + a.length + 1]? = some '>' := by
    rw [hs, List.getElem?_append_right (by omega)]
    have h1 : n.length + a.length + 1 - n.length = a.length + 1 := by omega
    rw [h1, List.getElem?_cons_succ,
      List.getElem?_append_right (Nat.le_refl _)]
    simp
  have hmema : ∀ i, n.length < i → i < n.length + a.length + 1 →
      ∃ c, s[i]? = some c ∧ c ∈ a := by
    intro i h1 h2
    have hi : i - n.length = (i - n.length - 1) + 1 := by omega
    have hlt : i - n.length - 1 < a.length := by omega
    rw [hs, List.getElem?_append_right (by omega), hi,
      List.getElem?_cons_succ, List.getElem?_append_left hlt,
      List.getElem?_eq_getElem hlt]
    exact ⟨a[i - n.length - 1], rfl, List.getElem_mem hlt⟩
  have hnoLt : ∀ i, n.length < i → i < s.length → s[i]? ≠ some '<' := by
    intro i h1 h2
    rw [hlen] at h2
    by_cases hi : i = n.length + a.length + 1
    · subst hi
      rw [hsLast]
      simp
    · obtain ⟨c, hc, hca⟩ := hmema i h1 (by omega)
      rw [hc]
      intro heq
      have : c = '<' := by simpa using heq
      exact (ha c hca).1 this
  have hfeasN : feasible s n.length = true := by
    have h1 : isChar s n.length '<' = true := by simp [isChar, hsN]
    have h2 : (lastHit
        (fun j => decide (n.length < j) && isChar s j '>' &&
          ltFree s (n.length + 1) j) s.length).isSome = true := by
      apply lastHit_isSome_of (show n.length + a.length + 1 < s.length by
        rw [hlen]; omega)
      have hc : isChar s (n.length + a.length + 1) '>' = true := by
        simp [isChar, hsLast]
      simp [hc, ltFree_of_no_lt hnl]
      omega
    simp [feasible, h1, h2]
  have hfeasAbove : ∀ i, n.length < i → i < s.length →
      feasible s i = false := by
    intro i h1 h2
    have : isChar s i '<' = false := by
      simp only [isChar, beq_eq_false_iff_ne]
      exact hnoLt i h1 h2
    simp [feasible, this]
  have hgroup2 : lastHit
      (fun j => decide (n.length < j) && isChar s j '>' &&
        ltFree s (n.length + 1) j) s.length =
      some (n.length + a.length + 1) := by
    apply lastHit_eq_some_of (show n.length + a.length + 1 < s.length by
      rw [hlen]; omega)
    · have hc : isChar s (n.length + a.length + 1) '>' = true := by
        simp [isChar, hsLast]
      simp [hc, ltFree_of_no_lt hnl]
      omega
    · intro j hj1 hj2
      exfalso
      rw [hlen] at hj2
      omega
  have hmatchAt0 : matchAtFrom s 0 = some n.length := by
    unfold matchAtFrom
    apply lastHit_eq_some_of (show n.length < s.length by rw [hlen]; omega)
    · simp [hfeasN, ltFree_of_no_lt hnl]
    · intro j h1 h2
      simp [hfeasAbove j h1 h2]
  have hstart : matchStart s = some 0 := by
    unfold matchStart
    have h0 : (matchAtFrom s 0).isSome = true := by
      rw [hmatchAt0]
      rfl
    have hlen1 : s.length = (n.length + a.length + 1) + 1 := by
      rw [hlen]
    rw [hlen1, List.range_succ_eq_map]
    exact List.find?_cons_of_pos _ h0
  have hseg1 : seg s 0 n.length = n := by
    unfold seg
    rw [List.drop_zero, Nat.sub_zero, hs, List.take_left' rfl]
  have hseg2 : seg s (n.length + 1) (n.length + a.length + 1) = a := by
    unfold seg
    have h1 : s.drop (n.length + 1) = a ++ ['>'] := by
      rw [hs, show n.length + 1 = n.length + 1 from rfl,
        ← List.drop_drop, List.drop_left]
      rfl
    have h2 : n.length + a.length + 1 - (n.length + 1) = a.length := by
      omega
    rw [h1, h2, List.take_left' rfl]
  show jsFromMatch (String.mk s) = some (String.mk n, String.mk a)
  have htl : (String.mk s).toList = s := rfl
  simp only [jsFromMatch, htl, hstart, hmatchAt0, hgroup2, hseg1, hseg2]

/-! ### C6 — sender-header parsing -/

/-- C6: with no `from` header — or an empty one, since `if (msg.from)` is a
truthiness test — the normalizer uses the fixed sentinels `"Unknown"` /
`"unknown@example.com"`; when a non-empty header does not match
`/(.*)<(.*)>/` the whole string becomes both name and address; and on a
well-formed `Name <addr>` header the name part (trimmed, double quotes
stripped) and the address part (trimmed) are extracted. -/
theorem normalizer_sender_spec (now : Int) (msg : BackendMessage) :
    (msg.fromHeader = none ∨ msg.fromHeader = some "" →
      (mapBackendMessageToEmail now msg).senderName = "Unknown" ∧
      (mapBackendMessageToEmail now msg).sender = "unknown@example.com") ∧
    (∀ f : String, msg.fromHeader = some f → f ≠ "" →
      jsFromMatch f = none →
      (mapBackendMessageToEmail now msg).senderName = f ∧
      (mapBackendMessageToEmail now msg).sender = f) ∧
    (∀ (f : String) (n a : List Char), msg.fromHeader = some f →
      f.toList = n ++ '<' :: (a ++ ['>']) →
      (∀ c ∈ n, isLineTerm c = false) →
      (∀ c ∈ a, c ≠ '<' ∧ c ≠ '>' ∧ isLineTerm c = false) →
      (mapBackendMessageToEmail now msg).senderName =
        stripQuotes (jsTrim (String.mk n)) ∧
      (mapBackendMessageToEmail now msg).sender =
        jsTrim (String.mk a)) := by
  refine ⟨?_, ?_, ?_⟩
  · intro h
    rcases h with h | h <;>
      simp [mapBackendMessageToEmail, parseSender, h]
  · intro f hf hfne hnone
    simp [mapBackendMessageToEmail, parseSender, hf, hfne, hnone]
  · intro f n a hf hdecomp hn ha
    have hfne : f ≠ "" := by
      intro hfe
      subst hfe
      have h0 : ([] : List Char) = n ++ '<' :: (a ++ ['>']) := hdecomp
      have h1 := congrArg List.length h0
      simp only [List.length_nil, List.length_append, List.length_cons]
        at h1
      omega
    have hfm : jsFromMatch f = some (String.mk n, String.mk a) := by
      rw [show f = String.mk (n ++ '<' :: (a ++ ['>'])) from by
        rw [← hdecomp]
        rfl]
      exact jsFromMatch_decomposition n a hn ha
    simp [mapBackendMessageToEmail, parseSender, hf, hfne, hfm]

theorem normalizer_sender_spec_witness :
    (mapBackendMessageToEmail 0 msgBob).senderName = "Bob Smith" ∧
    (mapBackendMessageToEmail 0 msgBob).sender = "bob@x.com" := by
  have h := (normalizer_sender_spec 0 msgBob).2.2
    "\"Bob Smith\" <bob@x.com>" ("\"Bob Smith\" ".toList)
    ("bob@x.com".toList) rfl (by decide) (by decide) (by decide)
  exact ⟨h.1.trans (by decide), h.2.trans (by decide)⟩

/-! ### C4 — thread grouping is a partition -/

/-- C4: grouping into threads (key `threadId` when present and non-empty,
else `id`) and re-flattening preserves the total message count and every
`id` exactly once; each thread is a nonempty group of a single key, and
distinct threads have distinct keys, so the groups partition the working
set. -/
theorem threads_partition (es : List Email) :
    List.Perm (threads es).flatten es ∧
    (threads es).flatten.length = es.length ∧
    List.Perm ((threads es).flatten.map Email.id) (es.map Email.id) ∧
    (∀ t ∈ threads es, t ≠ [] ∧ ∀ a ∈ t, ∀ b ∈ t, keyOf a = keyOf b) ∧
    (threads es).Pairwise
      (fun t u => ∀ a ∈ t, ∀ b ∈ u, keyOf a ≠ keyOf b) := by
  have hflat : List.Perm (threads es).flatten es := by
    have h1 : List.Perm (threads es).flatten
        ((groupsOf es).map sortThread).flatten :=
      (threads_perm_groups es).flatten
    have h2 : List.Perm ((groupsOf es).map sortThread).flatten
        (groupsOf es).flatten := by
      apply List.Perm.flatten_congr
      rw [List.forall₂_map_left_iff]
      rw [List.forall₂_same]
      exact fun g _ => sortThread_perm g
    exact (h1.trans h2).trans (groupsOf_flatten_perm es)
  refine ⟨hflat, hflat.length_eq, hflat.map _, ?_, ?_⟩
  · intro t ht
    obtain ⟨k, hk, hteq⟩ := mem_threads ht
    obtain ⟨e, he, hke⟩ := keysFirst_exists hk
    subst hteq
    constructor
    · intro hnil
      have hmem : e ∈ sortThread (es.filter (fun e => keyOf e == k)) :=
        List.mem_mergeSort.mpr (List.mem_filter.mpr ⟨he, by simp [hke]⟩)
      rw [hnil] at hmem
      cases hmem
    · intro a ha b hb
      have hka : keyOf a = k := by
        have := (List.mem_filter.mp (List.mem_mergeSort.mp ha)).2
        simpa using this
      have hkb : keyOf b = k := by
        have := (List.mem_filter.mp (List.mem_mergeSort.mp hb)).2
        simpa using this
      rw [hka, hkb]
  · have hsymm : ∀ {t u : List Email},
        (∀ a ∈ t, ∀ b ∈ u, keyOf a ≠ keyOf b) →
        (∀ a ∈ u, ∀ b ∈ t, keyOf a ≠ keyOf b) := by
      intro t u h a ha b hb
      exact (h b hb a ha).symm
    rw [List.Perm.pairwise_iff hsymm (threads_perm_groups es)]
    unfold groupsOf
    rw [List.pairwise_map, List.pairwise_map]
    refine (keysFirst_nodup es).imp ?_
    intro k kk hkk a ha b hb
    have hka : keyOf a = k := by
      have := (List.mem_filter.mp (List.mem_mergeSort.mp ha)).2
      simpa using this
    have hkb : keyOf b = kk := by
      have := (List.mem_filter.mp (List.mem_mergeSort.mp hb)).2
      simpa using this
    rw [hka, hkb]
    exact hkk

theorem threads_partition_witness :
    (threads esW).flatten.length = esW.length ∧ keyOf eA = keyOf eB := by
  have h := threads_partition esW
  have hth : threads esW = [[eA, eB]] := by
    simp [threads, groupsOf, keysFirst, keyOf, sortThread, esW, eA, eB,
      List.mergeSort, dateLE]
  refine ⟨h.2.1, ?_⟩
  have hmem : [eA, eB] ∈ threads esW := by
    rw [hth]
    exact List.mem_cons_self _ _
  exact (h.2.2.2.1 [eA, eB] hmem).2 eA (List.mem_cons_self _ _) eB
    (List.mem_cons_of_mem _ (List.mem_cons_self _ _))

/-! ### C3 — intra-thread and inter-thread ordering -/

/-- C3: within each thread messages are sorted ascending by `receivedAt`
with ties keeping relative input order (the sort is stable: filtering any
fixed timestamp out of the sorted thread returns exactly the input-order
occurrences); threads are ordered by their latest (last) message,
descending by `urgencyScore` (missing treated as 0) and, for equal scores,
descending by that latest message's `receivedAt`. -/
theorem threads_ordering (es : List Email) :
    (∀ t ∈ threads es,
      t.Pairwise (fun a b : Email => a.receivedAt ≤ b.receivedAt)) ∧
    (∀ g ∈ groupsOf es, ∀ v : Int,
      (sortThread g).filter (fun e => e.receivedAt == v) =
        g.filter (fun e => e.receivedAt == v)) ∧
    (threads es).Pairwise (fun a b =>
      scoreOf (latest b) ≤ scoreOf (latest a) ∧
      (scoreOf (latest a) = scoreOf (latest b) →
        (latest b).receivedAt ≤ (latest a).receivedAt)) := by
  refine ⟨?_, ?_, ?_⟩
  · intro t ht
    obtain ⟨k, _, hteq⟩ := mem_threads ht
    subst hteq
    have hs := List.sorted_mergeSort dateLE_trans dateLE_total
      (es.filter (fun e => keyOf e == k))
    exact hs.imp (fun h => by simpa [dateLE] using h)
  · intro g _ v
    have hcp : List.Pairwise (fun a b => dateLE a b = true)
        (g.filter (fun e => e.receivedAt == v)) := by
      apply pairwise_of_mem
      intro a ha b hb
      have hva : a.receivedAt = v := by
        simpa using (List.mem_filter.mp ha).2
      have hvb : b.receivedAt = v := by
        simpa using (List.mem_filter.mp hb).2
      simp [dateLE, hva, hvb]
    have hsub : List.Sublist (g.filter (fun e => e.receivedAt == v)) g :=
      List.filter_sublist g
    have h1 : List.Sublist (g.filter (fun e => e.receivedAt == v))
        (sortThread g) :=
      List.sublist_mergeSort dateLE_trans dateLE_total hcp hsub
    have h2 : List.Sublist
        ((g.filter (fun e => e.receivedAt == v)).filter
          (fun e => e.receivedAt == v))
        ((sortThread g).filter (fun e => e.receivedAt == v)) :=
      h1.filter _
    rw [List.filter_eq_self.mpr (fun a ha => (List.mem_filter.mp ha).2)]
      at h2
    have hlen : ((sortThread g).filter
        (fun e => e.receivedAt == v)).length =
        (g.filter (fun e => e.receivedAt == v)).length :=
      ((sortThread_perm g).filter _).length_eq
    exact (h2.eq_of_length hlen.symm).symm
  · unfold threads
    refine (List.sorted_mergeSort threadLE_trans threadLE_total
      ((groupsOf es).map sortThread)).imp ?_
    intro a b h
    rw [threadLE_iff] at h
    rcases h with h | h
    · exact ⟨le_of_lt h, fun heq => absurd heq (by omega)⟩
    · exact ⟨le_of_eq h.1.symm, fun _ => h.2⟩

theorem threads_ordering_witness :
    (threads esW)[0]?.map
        (fun t => t.Pairwise
          (fun a b : Email => a.receivedAt ≤ b.receivedAt)) =
      some True ∧
    (sortThread [eB, eA]).filter (fun e => e.receivedAt == (2 : Int)) =
      [eB, eA].filter (fun e => e.receivedAt == (2 : Int)) := by
  have h := threads_ordering esW
  have hth : threads esW = [[eA, eB]] := by
    simp [threads, groupsOf, keysFirst, keyOf, sortThread, esW, eA, eB,
      List.mergeSort, dateLE]
  have hg : [eB, eA] ∈ groupsOf esW := by
    simp [groupsOf, keysFirst, keyOf, esW, eA, eB]
  constructor
  · rw [hth]
    have hp := h.1 [eA, eB] (by rw [hth]; exact List.mem_cons_self _ _)
    simp [eq_true hp]
  · exact h.2.1 [eB, eA] hg 2
